import Mathlib

/-!
Verification of the content-indexing pipeline of a static blog.

The pipeline lives in a handful of small TypeScript functions:
* `GET` in `src/routes/api/posts/+server.ts` builds the published-post list
  (the spec's `listPublishedPosts`): it filters source records on
  `metadata?.published && slug`, derives the slug from the file path, and
  sorts descending by date;
* `lastUpdated` in `src/lib/helpers.ts` computes the most recent effective
  timestamp (the spec's `mostRecentUpdate`);
* `tags` in `src/routes/+page.ts` ranks tags by frequency
  (the spec's `tagFrequencyRanking`);
* the `load` function in `src/routes/blog/tags/[tag]/+page.ts` filters posts
  by tag (the spec's `filterByTag`).

External collaborators (the JS `Date` constructor, `JSON.stringify` /
`response.json()`, `Array.prototype.sort`, `localeCompare`) are modelled
explicitly; each model is documented at its definition.
-/

/-- A blog post record (`Post` in `src/lib/types.ts`):
`title`, `slug`, `date`, `tags`, `published`, optional `updated`.
A source file's front-matter metadata object has the same shape, so `Post`
also serves as the metadata type in `Paths = Record<string, { metadata?: Post }>`. -/
structure Post where
  title : String
  slug : String
  date : String
  tags : List String
  published : Bool
  updated : Option String
deriving Repr, DecidableEq

/-- The source-discovery input (`Paths` in `src/lib/types.ts`):
for each file path, an object that may carry a parsed metadata record.
A JS `Record` is modelled as an association list; `GET` iterates its keys
in order via `Object.keys(paths).reduce`. -/
abbrev Paths := List (String × Option Post)

/-- Number of Unicode code points; every `Char.toNat` is below it. -/
def charBase : Nat := 1114112

/-- Positional (base `charBase`) value of a character list, most significant
character first. -/
def timeAux : List Char → Nat
  | [] => 0
  | c :: cs => c.toNat * charBase ^ cs.length + timeAux cs

/-- Model of the external JS `new Date(s).getTime()` as used by the pipeline,
where `s` is an ISO `YYYY-MM-DD` date string (the data model's `date` format).
On such strings chronological order coincides with lexicographic order of the
characters, so the timestamp is modelled as the base-`charBase` positional
value of the string; this is strictly monotone in lexicographic order among
strings of equal length. -/
def strTime (s : String) : Nat := timeAux s.data

/-- JS `String.prototype.split(sep)` with a one-character separator, over
character lists: cut at every occurrence of `sep`; adjacent separators and
separators at either end produce empty segments, and the result is never
empty (splitting `""` yields `[""]`). -/
def splitCharAux (sep : Char) : List Char → List Char → List (List Char)
  | [], cur => [cur.reverse]
  | c :: cs, cur =>
    if c = sep then cur.reverse :: splitCharAux sep cs []
    else splitCharAux sep cs (c :: cur)

/-- JS `path.split('/').at(-1)`: the last `/`-separated segment of a path.
For a string input `split` never yields an empty array, so `at(-1)` is the
last element; the default `""` is never used. -/
def lastSegment (path : String) : String :=
  ⟨(splitCharAux '/' path.data []).getLastD []⟩

/-- JS `String.prototype.replace(pat, '')` with a plain-string pattern:
remove the first occurrence of `pat`, leave the string unchanged if `pat`
does not occur. -/
def removeFirstAux (pat : List Char) : List Char → List Char
  | [] => []
  | c :: cs =>
    if pat.isPrefixOf (c :: cs) then (c :: cs).drop pat.length
    else c :: removeFirstAux pat cs

/-- Slug derivation in `GET` (`src/routes/api/posts/+server.ts` line 11):
`path.split('/').at(-1)?.replace('.md', '')` — the last path segment with
the first occurrence of `".md"` removed. -/
def slugOf (path : String) : String := ⟨removeFirstAux ".md".data (lastSegment path).data⟩

/-- The sort relation of `GET`:
`(a, b) => new Date(b.date).getTime() - new Date(a.date).getTime()` places
`a` no later than `b` exactly when `a`'s date is no older, i.e. descending
by date (newest first). -/
def newestFirst (a b : Post) : Prop := strTime b.date ≤ strTime a.date

instance : DecidableRel newestFirst := fun _ _ => Nat.decLe _ _

/-- The post-list computation of `GET` in `src/routes/api/posts/+server.ts`
(the spec's `listPublishedPosts`): a `reduce` over the record's keys that
keeps a record exactly when `metadata?.published && slug` is truthy
(metadata present, `published` true, derived slug a non-empty string),
building `{ ...metadata, slug }`, followed by a sort descending by date.
JS `Array.prototype.sort` (stable, comparator-respecting) is modelled by
insertion sort; the `json(...)` response wrapper is external. -/
def listPublishedPosts (paths : Paths) : List Post :=
  (paths.foldl
    (fun acc pm =>
      match pm.2 with
      | some metadata =>
        let slug := slugOf pm.1
        if metadata.published = true ∧ slug ≠ "" then acc ++ [{ metadata with slug := slug }]
        else acc
      | none => acc)
    []).insertionSort newestFirst

/-- `lastUpdated` in `src/lib/helpers.ts` (the spec's `mostRecentUpdate`):
a `reduce` over all posts with initial accumulator `posts[0].date`, keeping
`post.updated ?? post.date` whenever it is strictly newer than the
accumulator. On the empty list the JS code throws a `TypeError`
(`posts[0]` is `undefined`, so `posts[0].date` fails); the failure is
modelled as `none`. -/
def lastUpdated (posts : List Post) : Option String :=
  match posts with
  | [] => none
  | first :: rest =>
    some ((first :: rest).foldl
      (fun acc post =>
        let date := post.updated.getD post.date
        if strTime acc < strTime date then date else acc)
      first.date)

/-- The effective ("last modified") timestamp of a post: `updated ?? date`. -/
def effectiveDate (post : Post) : String := post.updated.getD post.date

/-- JS object key order for the string-keyed tag-count object built in
`tags` (`src/routes/+page.ts`): insertion order, i.e. order of first
occurrence. (JS would move integer-like keys such as `"42"` to the front;
that reordering is irrelevant here because the subsequent sort's comparator
is total, so the sorted result does not depend on the key order.) -/
def objKeys (l : List String) : List String :=
  l.foldl (fun ks t => if t ∈ ks then ks else ks ++ [t]) []

/-- Number of occurrences of tag `t` over all posts' `tags`, duplicates
within one post counted multiply — the value `count[t]` built by
`posts.flatMap((p) => p.tags).reduce(...)` in `src/routes/+page.ts`. -/
def tagCount (posts : List Post) (t : String) : Nat :=
  ((posts.map Post.tags).flatten).count t

/-- The tag-sort relation of `tags` (`src/routes/+page.ts`):
`(t1, t2) => count[t2] - count[t1] || t1.localeCompare(t2)` places `t1`
no later than `t2` exactly when `t1` has the strictly larger count, or the
counts are equal and `t1` precedes (or equals) `t2` as a string.
`localeCompare` ('en') is modelled as code-point lexicographic comparison
(stated on the underlying character lists, which is the same order as
`String`'s `≤`), with which it agrees on the lower-case ASCII tags of this
site. -/
def tagsOrder (posts : List Post) (t1 t2 : String) : Prop :=
  tagCount posts t2 < tagCount posts t1 ∨
    (tagCount posts t1 = tagCount posts t2 ∧ t1.data ≤ t2.data)

instance (posts : List Post) : DecidableRel (tagsOrder posts) := fun _ _ => instDecidableOr

instance (posts : List Post) : IsTotal String (tagsOrder posts) :=
  ⟨fun t1 t2 => by
    rcases Nat.lt_trichotomy (tagCount posts t1) (tagCount posts t2) with h | h | h
    · exact Or.inr (Or.inl h)
    · rcases le_total t1.data t2.data with hle | hle
      · exact Or.inl (Or.inr ⟨h, hle⟩)
      · exact Or.inr (Or.inr ⟨h.symm, hle⟩)
    · exact Or.inl (Or.inl h)⟩

instance (posts : List Post) : IsTrans String (tagsOrder posts) :=
  ⟨fun _ _ _ hab hbc => by
    rcases hab with h1 | ⟨h1, h1'⟩ <;> rcases hbc with h2 | ⟨h2, h2'⟩
    · exact Or.inl (by omega)
    · exact Or.inl (by omega)
    · exact Or.inl (by omega)
    · exact Or.inr ⟨by omega, le_trans h1' h2'⟩⟩

/-- The `tags` function of `src/routes/+page.ts` (the spec's
`tagFrequencyRanking`): flatten all posts' tags, count occurrences into a
string-keyed object, and sort the object's keys descending by count with
ties broken by `localeCompare`. -/
def tags (posts : List Post) : List String :=
  (objKeys ((posts.map Post.tags).flatten)).insertionSort (tagsOrder posts)

/-- The filtering step of `load` in `src/routes/blog/tags/[tag]/+page.ts`
(the spec's `filterByTag`):
`posts.filter((post) => post.tags.includes(tag))`. -/
def filterByTag (posts : List Post) (tag : String) : List Post :=
  posts.filter (fun post => post.tags.contains tag)

/-- Slug derivation in the words of the spec, for comparison with the
code's `slugOf`: "take the last path segment, strip the file extension" —
remove a final `".md"` suffix (and only a final one). -/
def specSlug (path : String) : String :=
  if ".md".data.isSuffixOf (lastSegment path).data then
    ⟨(lastSegment path).data.take ((lastSegment path).data.length - 3)⟩
  else lastSegment path

/-- JSON values, the common shape of `JSON.stringify` output and
`response.json()` input. The pipeline's round trip through the JSON text
format is modelled at this level: `stringify` and `parse` are external,
mutually inverse collaborators between values and text. -/
inductive Json where
  | str : String → Json
  | bool : Bool → Json
  | arr : List Json → Json
  | obj : List (String × Json) → Json
deriving Repr

/-- The JSON object `JSON.stringify` produces for one `Post`: one key per
record field, in declaration order; an absent optional `updated` field is
omitted (JS `undefined` properties are not serialized). -/
def encodePost (p : Post) : Json :=
  Json.obj
    ([("title", Json.str p.title), ("slug", Json.str p.slug),
      ("date", Json.str p.date), ("tags", Json.arr (p.tags.map Json.str)),
      ("published", Json.bool p.published)] ++
      (match p.updated with
       | some u => [("updated", Json.str u)]
       | none => []))

/-- The JSON array `json(posts)` serializes. -/
def encodePosts (posts : List Post) : Json := Json.arr (posts.map encodePost)

/-- Look up a key in a parsed JSON object (first binding wins). -/
def jsonField (fields : List (String × Json)) (k : String) : Option Json :=
  (fields.find? (fun f => f.1 == k)).map (fun f => f.2)

/-- Read a JSON value as a string. -/
def asString : Json → Option String
  | Json.str s => some s
  | _ => none

/-- Read a JSON value as a boolean. -/
def asBool : Json → Option Bool
  | Json.bool b => some b
  | _ => none

/-- Read a list of JSON values as strings, failing on any non-string. -/
def decodeStrings : List Json → Option (List String)
  | [] => some []
  | j :: js =>
    match asString j, decodeStrings js with
    | some s, some ss => some (s :: ss)
    | _, _ => none

/-- Reconstruct a `Post` record from a parsed JSON object, field by field,
as the consuming `load` functions access the parsed value structurally. -/
def decodePost : Json → Option Post
  | Json.obj fields =>
    match (jsonField fields "title").bind asString,
        (jsonField fields "slug").bind asString,
        (jsonField fields "date").bind asString,
        (jsonField fields "tags"),
        (jsonField fields "published").bind asBool with
    | some title, some slug, some date, some (Json.arr tagJs), some published =>
      match decodeStrings tagJs with
      | some tagList =>
        some { title := title, slug := slug, date := date, tags := tagList,
               published := published,
               updated := (jsonField fields "updated").bind asString }
      | none => none
    | _, _, _, _, _ => none
  | _ => none

/-- Reconstruct each element of a parsed JSON array as a `Post`. -/
def decodePostList : List Json → Option (List Post)
  | [] => some []
  | j :: js =>
    match decodePost j, decodePostList js with
    | some p, some ps => some (p :: ps)
    | _, _ => none

/-- Reconstruct a list of `Post` records from a parsed JSON array. -/
def decodePosts : Json → Option (List Post)
  | Json.arr js => decodePostList js
  | _ => none

/-! Concrete sample records, used to instantiate the theorems below. -/

/-- A published metadata record; its authored `slug` field is a decoy that
the path-derived slug must override. -/
def metaAlpha : Post :=
  { title := "Alpha", slug := "decoy", date := "2024-01-01",
    tags := ["a", "a", "b"], published := true, updated := none }

/-- A published metadata record with an `updated` field. -/
def metaBeta : Post :=
  { title := "Beta", slug := "decoy2", date := "2024-02-01",
    tags := ["b"], published := true, updated := some "2024-03-01" }

/-- An unpublished (draft) metadata record. -/
def metaDraft : Post :=
  { title := "Draft", slug := "d", date := "2023-05-05",
    tags := ["c"], published := false, updated := none }

/-- A concrete source collection used to instantiate the theorems below. -/
def demoPaths : Paths :=
  [("/src/lib/posts/alpha.md", some metaAlpha),
   ("/src/lib/posts/beta.md", some metaBeta),
   ("/src/lib/posts/draft.md", some metaDraft),
   ("/src/lib/posts/nometa.md", none)]

/-- The per-record step of the `reduce` in `GET`, as a `filterMap` step:
keep a record exactly when its metadata is present, `published` is `true`,
and the derived slug is non-empty; the kept `Post` is
`{ ...metadata, slug }`. -/
def includeRecord (pm : String × Option Post) : Option Post :=
  match pm.2 with
  | some metadata =>
    if metadata.published = true ∧ slugOf pm.1 ≠ "" then
      some { metadata with slug := slugOf pm.1 }
    else none
  | none => none

/-- The reducer of `lastUpdated`: keep `post.updated ?? post.date` when it
is strictly newer than the accumulator. -/
def updateStep (acc : String) (post : Post) : String :=
  let date := post.updated.getD post.date
  if strTime acc < strTime date then date else acc

instance : IsTotal Post newestFirst :=
  ⟨fun a b => Nat.le_total (strTime b.date) (strTime a.date)⟩

instance : IsTrans Post newestFirst :=
  ⟨fun _ _ _ hab hbc => Nat.le_trans hbc hab⟩

/-! Helper lemmas. -/

lemma char_toNat_lt_charBase (c : Char) : c.toNat < charBase := by
  rcases c.valid with h | ⟨_, h⟩ <;>
    · have : c.toNat = c.val.toNat := rfl
      rw [charBase]; omega

lemma char_toNat_lt_of_lt {a b : Char} (h : a < b) : a.toNat < b.toNat := h

lemma timeAux_lt (l : List Char) : timeAux l < charBase ^ l.length := by
  induction l with
  | nil => simp [timeAux, charBase]
  | cons c cs ih =>
    have hc := char_toNat_lt_charBase c
    have hpow : 0 < charBase ^ cs.length := Nat.pos_pow_of_pos _ (by rw [charBase]; omega)
    calc timeAux (c :: cs) = c.toNat * charBase ^ cs.length + timeAux cs := rfl
    _ < c.toNat * charBase ^ cs.length + charBase ^ cs.length := by omega
    _ = (c.toNat + 1) * charBase ^ cs.length := by ring
    _ ≤ charBase * charBase ^ cs.length := Nat.mul_le_mul_right _ hc
    _ = charBase ^ (cs.length + 1) := by rw [pow_succ, Nat.mul_comm]
    _ = charBase ^ (c :: cs).length := by rw [List.length_cons]

lemma timeAux_lt_of_lex {l l' : List Char} (hlen : l.length = l'.length)
    (h : List.Lex (· < ·) l l') : timeAux l < timeAux l' := by
  induction h with
  | nil => simp at hlen
  | @cons a as bs h ih =>
    have hlen' : as.length = bs.length := by simpa using hlen
    have := ih hlen'
    simp only [timeAux, hlen']
    omega
  | @rel a as b bs hr =>
    have hab := char_toNat_lt_of_lt hr
    have hlen' : as.length = bs.length := by simpa using hlen
    have h1 := timeAux_lt as
    have h2 : (a.toNat + 1) * charBase ^ as.length ≤ b.toNat * charBase ^ bs.length := by
      rw [hlen']
      exact Nat.mul_le_mul_right _ hab
    simp only [timeAux]
    nlinarith [Nat.zero_le (timeAux bs)]

lemma strTime_lt_of_lt {s t : String} (hlen : s.length = t.length) (h : s < t) :
    strTime s < strTime t := by
  have h' : List.Lex (· < ·) s.data t.data := String.lt_iff_toList_lt.mp h
  have hlen' : s.data.length = t.data.length := hlen
  exact timeAux_lt_of_lex hlen' h'

lemma le_of_strTime_le {s t : String} (hlen : s.length = t.length)
    (h : strTime t ≤ strTime s) : t ≤ s := by
  by_contra hc
  have hst : s < t := lt_of_not_le hc
  exact absurd h (Nat.not_le.mpr (strTime_lt_of_lt hlen hst))

lemma strTime_inj {s t : String} (hlen : s.length = t.length)
    (h : strTime s = strTime t) : s = t := by
  rcases lt_trichotomy s t with hlt | heq | hgt
  · exact absurd h (Nat.ne_of_lt (strTime_lt_of_lt hlen hlt))
  · exact heq
  · exact absurd h.symm (Nat.ne_of_lt (strTime_lt_of_lt hlen.symm hgt))

lemma includeRecord_eq_some {pm : String × Option Post} {p : Post} :
    includeRecord pm = some p ↔
      ∃ md, pm.2 = some md ∧ md.published = true ∧ slugOf pm.1 ≠ "" ∧
        p = { md with slug := slugOf pm.1 } := by
  rcases pm with ⟨path, m⟩
  cases m with
  | none => simp [includeRecord]
  | some md =>
    by_cases h : md.published = true ∧ slugOf path ≠ ""
    · simp only [includeRecord, if_pos h, Option.some_inj]
      constructor
      · rintro rfl
        exact ⟨md, rfl, h.1, h.2, rfl⟩
      · rintro ⟨md', hmd', _, _, rfl⟩
        cases hmd'
        rfl
    · simp only [includeRecord, if_neg h]
      constructor
      · rintro ⟨⟩
      · rintro ⟨md', hmd', h1, h2, rfl⟩
        cases hmd'
        exact absurd ⟨h1, h2⟩ h

lemma lpp_foldl (paths : Paths) (acc : List Post) :
    paths.foldl
      (fun acc pm =>
        match pm.2 with
        | some metadata =>
          let slug := slugOf pm.1
          if metadata.published = true ∧ slug ≠ "" then acc ++ [{ metadata with slug := slug }]
          else acc
        | none => acc)
      acc
    = acc ++ paths.filterMap includeRecord := by
  induction paths generalizing acc with
  | nil => simp
  | cons pm rest ih =>
    rcases pm with ⟨path, m⟩
    cases m with
    | none => simpa [includeRecord] using ih acc
    | some md =>
      by_cases h : md.published = true ∧ slugOf path ≠ ""
      · simp only [List.foldl_cons, List.filterMap_cons, includeRecord, if_pos h, ih]
        simp
      · simp only [List.foldl_cons, List.filterMap_cons, includeRecord, if_neg h, ih]

lemma listPublishedPosts_eq (paths : Paths) :
    listPublishedPosts paths = (paths.filterMap includeRecord).insertionSort newestFirst := by
  rw [listPublishedPosts, lpp_foldl, List.nil_append]

lemma listPublishedPosts_perm (paths : Paths) :
    List.Perm (listPublishedPosts paths) (paths.filterMap includeRecord) := by
  rw [listPublishedPosts_eq]
  exact List.perm_insertionSort _ _

lemma mem_listPublishedPosts {paths : Paths} {p : Post} :
    p ∈ listPublishedPosts paths ↔ ∃ pm ∈ paths, includeRecord pm = some p := by
  rw [(listPublishedPosts_perm paths).mem_iff, List.mem_filterMap]

lemma listPublishedPosts_sorted (paths : Paths) :
    (listPublishedPosts paths).Pairwise newestFirst := by
  rw [listPublishedPosts_eq]
  exact List.sorted_insertionSort newestFirst _

lemma decodeStrings_map_str (l : List String) :
    decodeStrings (l.map Json.str) = some l := by
  induction l with
  | nil => rfl
  | cons s ss ih => simp [decodeStrings, asString, ih]

lemma decodePost_encodePost (p : Post) : decodePost (encodePost p) = some p := by
  rcases p with ⟨title, slug, date, tagList, published, updated⟩
  cases updated with
  | none => simp [encodePost, decodePost, jsonField, asString, asBool, decodeStrings_map_str]
  | some u => simp [encodePost, decodePost, jsonField, asString, asBool, decodeStrings_map_str]

lemma decodePosts_encodePosts (posts : List Post) :
    decodePosts (encodePosts posts) = some posts := by
  induction posts with
  | nil => rfl
  | cons p ps ih =>
    have hps : decodePostList (ps.map encodePost) = some ps := ih
    simp [encodePosts, decodePosts, decodePostList, decodePost_encodePost, hps]

lemma removeFirstAux_append (pat base : List Char) (hp : pat ≠ [])
    (huniq : ∀ l₁ l₂, base ++ pat = l₁ ++ pat ++ l₂ → l₂ = []) :
    removeFirstAux pat (base ++ pat) = base := by
  induction base with
  | nil =>
    cases pat with
    | nil => exact absurd rfl hp
    | cons c cs =>
      show removeFirstAux (c :: cs) (c :: cs) = []
      rw [removeFirstAux, if_pos (by simp), List.drop_length]
  | cons b bs ih =>
    have hcond : ¬ pat.isPrefixOf (b :: bs ++ pat) = true := by
      intro hpre
      rcases List.isPrefixOf_iff_prefix.mp hpre with ⟨t, ht⟩
      have ht' : (b :: bs) ++ pat = [] ++ pat ++ t := by simpa using ht.symm
      have : t = [] := huniq [] t ht'
      subst this
      have := congrArg List.length ht'
      simp at this
      omega
    have huniq' : ∀ l₁ l₂, bs ++ pat = l₁ ++ pat ++ l₂ → l₂ = [] := by
      intro l₁ l₂ hE
      exact huniq (b :: l₁) l₂ (by simp [hE])
    cases pat with
    | nil => exact absurd rfl hp
    | cons c cs =>
      show removeFirstAux (c :: cs) (b :: (bs ++ (c :: cs))) = b :: bs
      rw [removeFirstAux, if_neg (by simpa using hcond)]
      exact congrArg (b :: ·) (ih huniq')

/-- C4: `mostRecentUpdate` (the code's `lastUpdated`) applied to the empty
sequence of posts fails — the JS code throws on `posts[0].date` — rather
than returning a value; the failure is the spec's `EmptyInputError`. -/
theorem lastUpdated_empty_fails : lastUpdated [] = none := rfl

/-- C6: `filterByTag posts tag` returns exactly the posts whose `tags`
contain an exact, case-sensitive match for `tag`, in the input's relative
order (a sublist, with all matching occurrences retained), and the empty
sequence when no post contains the tag. -/
theorem filterByTag_exact (posts : List Post) (tag : String) :
    (filterByTag posts tag).Sublist posts ∧
    (∀ p, p ∈ filterByTag posts tag ↔ p ∈ posts ∧ tag ∈ p.tags) ∧
    (∀ p, tag ∈ p.tags → (filterByTag posts tag).count p = posts.count p) ∧
    ((∀ p ∈ posts, tag ∉ p.tags) → filterByTag posts tag = []) := by
  refine ⟨List.filter_sublist _, fun p => ?_, fun p hp => ?_, fun h => ?_⟩
  · simp [filterByTag, List.mem_filter]
  · rw [filterByTag, List.count_filter (by simpa using hp)]
  · rw [filterByTag, List.filter_eq_nil_iff]
    intro p hp
    simpa using h p hp

/-- C8: serializing the output of `listPublishedPosts` to JSON and parsing
it back yields structurally identical `Post` records, field for field. -/
theorem listPublishedPosts_json_roundtrip (paths : Paths) :
    decodePosts (encodePosts (listPublishedPosts paths)) = some (listPublishedPosts paths) :=
  decodePosts_encodePosts (listPublishedPosts paths)

/-- C1 counterexample: a record whose metadata is present with
`published = true` can still be excluded — here the derived slug is empty
(the last path segment is exactly `".md"`), so the output is empty and the
claimed biconditional fails at this input. -/
theorem published_record_excluded :
    metaAlpha.published = true ∧
      listPublishedPosts [("/src/lib/posts/.md", some metaAlpha)] = [] :=
  ⟨rfl, by decide⟩

/-- C1 (amended): for a record of the input, the output contains the Post
built from it (its metadata merged with the path-derived slug) if and only
if the metadata is present, its `published` field is `true`, and the
derived slug is non-empty. -/
theorem listPublishedPosts_iff (paths : Paths) (path : String) (m : Option Post)
    (hmem : (path, m) ∈ paths) :
    (∃ md, m = some md ∧ md.published = true ∧ slugOf path ≠ "") ↔
      (∃ md, m = some md ∧
        { md with slug := slugOf path } ∈ listPublishedPosts paths) := by
  constructor
  · rintro ⟨md, rfl, hpub, hslug⟩
    refine ⟨md, rfl, ?_⟩
    rw [mem_listPublishedPosts]
    exact ⟨(path, some md), hmem, includeRecord_eq_some.mpr ⟨md, rfl, hpub, hslug, rfl⟩⟩
  · rintro ⟨md, rfl, hp⟩
    rw [mem_listPublishedPosts] at hp
    rcases hp with ⟨pm, _, hinc⟩
    rcases includeRecord_eq_some.mp hinc with ⟨md', _, hpub', hslug', heq⟩
    rw [Post.mk.injEq] at heq
    obtain ⟨-, hslugEq, -, -, hpubEq, -⟩ := heq
    exact ⟨md, rfl, by rw [hpubEq]; exact hpub', by rw [hslugEq]; exact hslug'⟩

/-- Witness for `listPublishedPosts_iff` at a concrete input. -/
theorem listPublishedPosts_iff_witness :
    (∃ md, some metaAlpha = some md ∧ md.published = true ∧
        slugOf "/src/lib/posts/alpha.md" ≠ "") ↔
      (∃ md, some metaAlpha = some md ∧
        { md with slug := slugOf "/src/lib/posts/alpha.md" } ∈
          listPublishedPosts [("/src/lib/posts/alpha.md", some metaAlpha)]) :=
  listPublishedPosts_iff _ _ _ (by decide)

/-- C9: every Post in the output of `listPublishedPosts` has a non-empty
slug, and records whose derived slug is empty are silently excluded: the
output over the input with all such records removed is the same. -/
theorem empty_slug_records_excluded (paths : Paths) :
    (∀ p ∈ listPublishedPosts paths, p.slug ≠ "") ∧
      listPublishedPosts paths =
        listPublishedPosts (paths.filter (fun pm => slugOf pm.1 != "")) := by
  constructor
  · intro p hp
    rcases mem_listPublishedPosts.mp hp with ⟨pm, _, hinc⟩
    rcases includeRecord_eq_some.mp hinc with ⟨md, _, _, hslug, rfl⟩
    exact hslug
  · rw [listPublishedPosts_eq, listPublishedPosts_eq]
    congr 1
    induction paths with
    | nil => rfl
    | cons pm rest ih =>
      by_cases hq : slugOf pm.1 = ""
      · have hnone : includeRecord pm = none := by
          rcases pm with ⟨path, m⟩
          cases m with
          | none => rfl
          | some md => simp [includeRecord, hq]
        simp [List.filter_cons, List.filterMap_cons, hq, hnone, ih]
      · simp [List.filter_cons, List.filterMap_cons, hq, ih]

/-- C10: every Post in the output of `listPublishedPosts` comes from a
record of the input whose metadata it copies on every field except `slug`,
which is always the path-derived value (overriding any authored `slug` in
the metadata). -/
theorem listPublishedPosts_frame (paths : Paths) (p : Post)
    (hp : p ∈ listPublishedPosts paths) :
    ∃ pm ∈ paths, ∃ md, pm.2 = some md ∧ md.published = true ∧
      p.title = md.title ∧ p.date = md.date ∧ p.tags = md.tags ∧
      p.published = md.published ∧ p.updated = md.updated ∧
      p.slug = slugOf pm.1 := by
  rcases mem_listPublishedPosts.mp hp with ⟨pm, hpm, hinc⟩
  rcases includeRecord_eq_some.mp hinc with ⟨md, hmd, hpub, _, rfl⟩
  exact ⟨pm, hpm, md, hmd, hpub, rfl, rfl, rfl, rfl, rfl, rfl⟩

/-- Witness for `listPublishedPosts_frame`: the authored slug `"decoy"` of
`metaAlpha` is overridden by the path-derived slug. -/
theorem listPublishedPosts_frame_witness :
    ∃ pm ∈ [("/src/lib/posts/alpha.md", some metaAlpha)], ∃ md,
      pm.2 = some md ∧ md.published = true ∧
      ({ metaAlpha with slug := "alpha" } : Post).title = md.title ∧
      ({ metaAlpha with slug := "alpha" } : Post).date = md.date ∧
      ({ metaAlpha with slug := "alpha" } : Post).tags = md.tags ∧
      ({ metaAlpha with slug := "alpha" } : Post).published = md.published ∧
      ({ metaAlpha with slug := "alpha" } : Post).updated = md.updated ∧
      ({ metaAlpha with slug := "alpha" } : Post).slug = slugOf pm.1 :=
  listPublishedPosts_frame _ _ (by decide)

/-- C7 counterexample: for a published record at path
`"/src/lib/posts/a.mdx.md"` the code derives slug `"ax.md"` — `replace`
removes the FIRST occurrence of `".md"` — while the last segment with its
extension stripped is `"a.mdx"`, so the claimed universal slug law fails. -/
theorem slug_not_extension_stripped :
    (listPublishedPosts [("/src/lib/posts/a.mdx.md", some metaAlpha)]).map Post.slug
        = ["ax.md"] ∧
      specSlug "/src/lib/posts/a.mdx.md" = "a.mdx" ∧ ("ax.md" : String) ≠ "a.mdx" :=
  ⟨by decide, by decide, by decide⟩

/-- C7 (amended): every output Post's slug is the code's path derivation
(last segment with the first `".md"` occurrence removed), and whenever the
last segment contains `".md"` only as its final extension this agrees with
the spec's extension stripping; in particular the spec's example path
derives the claimed slug. -/
theorem slug_of_path (paths : Paths) (p : Post) (hp : p ∈ listPublishedPosts paths) :
    (∃ pm ∈ paths, p.slug = slugOf pm.1) ∧
    (∀ (path : String) (base : List Char),
      (lastSegment path).data = base ++ ".md".data →
      (∀ l₁ l₂, base ++ ".md".data = l₁ ++ ".md".data ++ l₂ → l₂ = []) →
      slugOf path = ⟨base⟩ ∧ specSlug path = ⟨base⟩) ∧
    slugOf "/src/lib/posts/2023-11-23-scott-encoding-adts-into-objects.md" =
      "2023-11-23-scott-encoding-adts-into-objects" := by
  refine ⟨?_, ?_, by decide⟩
  · rcases mem_listPublishedPosts.mp hp with ⟨pm, hpm, hinc⟩
    rcases includeRecord_eq_some.mp hinc with ⟨md, _, _, _, rfl⟩
    exact ⟨pm, hpm, rfl⟩
  · intro path base hseg huniq
    constructor
    · rw [slugOf, hseg, removeFirstAux_append _ _ (by decide) huniq]
    · have hsuf : ".md".data.isSuffixOf (lastSegment path).data = true := by
        rw [hseg]
        exact List.isSuffixOf_iff_suffix.mpr ⟨base, rfl⟩
      rw [specSlug, if_pos hsuf, hseg]
      congr 1
      have h3 : ".md".data.length = 3 := rfl
      rw [List.length_append, h3, Nat.add_sub_cancel]
      exact List.take_left' rfl

/-- Witness for `slug_of_path` at a concrete input. -/
theorem slug_of_path_witness :
    (∃ pm ∈ [("/src/lib/posts/alpha.md", some metaAlpha)],
        ({ metaAlpha with slug := "alpha" } : Post).slug = slugOf pm.1) ∧
    (∀ (path : String) (base : List Char),
      (lastSegment path).data = base ++ ".md".data →
      (∀ l₁ l₂, base ++ ".md".data = l₁ ++ ".md".data ++ l₂ → l₂ = []) →
      slugOf path = ⟨base⟩ ∧ specSlug path = ⟨base⟩) ∧
    slugOf "/src/lib/posts/2023-11-23-scott-encoding-adts-into-objects.md" =
      "2023-11-23-scott-encoding-adts-into-objects" :=
  slug_of_path _ _ (by decide)

/-- C2: the output of `listPublishedPosts` is sorted descending by `date`
(newest first): when all metadata dates are ISO `YYYY-MM-DD` strings (the
data model's format, length 10), every adjacent pair `(p1, p2)` of the
output satisfies `p1.date ≥ p2.date`; no relative order is guaranteed —
or stated — for posts with identical dates. -/
theorem listPublishedPosts_sorted_desc (paths : Paths)
    (hiso : ∀ pm ∈ paths, ∀ md, pm.2 = some md → md.date.length = 10) :
    (listPublishedPosts paths).Chain' (fun p1 p2 => p2.date ≤ p1.date) := by
  have hlen : ∀ p ∈ listPublishedPosts paths, p.date.length = 10 := by
    intro p hp
    rcases mem_listPublishedPosts.mp hp with ⟨pm, hpm, hinc⟩
    rcases includeRecord_eq_some.mp hinc with ⟨md, hmd, _, _, rfl⟩
    exact hiso pm hpm md hmd
  have hpw : (listPublishedPosts paths).Pairwise (fun p1 p2 => p2.date ≤ p1.date) :=
    (listPublishedPosts_sorted paths).imp_of_mem
      (fun ha hb h => le_of_strTime_le (by rw [hlen _ ha, hlen _ hb]) h)
  exact hpw.chain'

/-- Witness for `listPublishedPosts_sorted_desc` at a concrete input. -/
theorem listPublishedPosts_sorted_desc_witness :
    (listPublishedPosts demoPaths).Chain' (fun p1 p2 => p2.date ≤ p1.date) :=
  listPublishedPosts_sorted_desc demoPaths (by
    intro pm hpm md hmd
    rcases List.mem_cons.mp hpm with rfl | hpm
    · cases hmd; rfl
    · rcases List.mem_cons.mp hpm with rfl | hpm
      · cases hmd; rfl
      · rcases List.mem_cons.mp hpm with rfl | hpm
        · cases hmd; rfl
        · rcases List.mem_cons.mp hpm with rfl | hpm
          · exact Option.noConfusion hmd
          · cases hpm)

lemma foldl_updateStep (l : List Post) (acc : String) :
    (l.foldl updateStep acc = acc ∨ l.foldl updateStep acc ∈ l.map effectiveDate) ∧
    strTime acc ≤ strTime (l.foldl updateStep acc) ∧
    ∀ s ∈ l.map effectiveDate, strTime s ≤ strTime (l.foldl updateStep acc) := by
  induction l generalizing acc with
  | nil => exact ⟨Or.inl rfl, Nat.le_refl _, by simp⟩
  | cons p ps ih =>
    obtain ⟨ih1, ih2, ih3⟩ := ih (updateStep acc p)
    have hstep : updateStep acc p = effectiveDate p ∨ updateStep acc p = acc := by
      simp only [updateStep, effectiveDate]
      split
      · exact Or.inl rfl
      · exact Or.inr rfl
    have hacc : strTime acc ≤ strTime (updateStep acc p) := by
      simp only [updateStep]
      split
      · exact Nat.le_of_lt ‹_›
      · exact Nat.le_refl _
    have heff : strTime (effectiveDate p) ≤ strTime (updateStep acc p) := by
      simp only [updateStep, effectiveDate]
      split
      · exact Nat.le_refl _
      · exact Nat.le_of_not_lt ‹_›
    refine ⟨?_, Nat.le_trans hacc ih2, ?_⟩
    · rw [List.foldl_cons]
      rcases ih1 with h | h
      · rcases hstep with h' | h'
        · exact Or.inr (by rw [List.map_cons, h, h']; exact List.mem_cons_self _ _)
        · exact Or.inl (h.trans h')
      · exact Or.inr (by rw [List.map_cons]; exact List.mem_cons_of_mem _ h)
    · intro s hs
      rw [List.foldl_cons]
      rw [List.map_cons] at hs
      rcases List.mem_cons.mp hs with rfl | hs'
      · exact Nat.le_trans heff ih2
      · exact ih3 s hs'

/-- C3: for a non-empty sequence of posts with ISO `YYYY-MM-DD` timestamps
whose `updated` (when present) is chronologically no earlier than `date`
(the spec's stated assumption), `lastUpdated` (the spec's
`mostRecentUpdate`) returns the maximum effective timestamp
(`updated ?? date`) across all posts. -/
theorem lastUpdated_max (posts : List Post) (hne : posts ≠ [])
    (hiso : ∀ p ∈ posts, p.date.length = 10 ∧ ∀ u, p.updated = some u → u.length = 10)
    (hupd : ∀ p ∈ posts, ∀ u, p.updated = some u → strTime p.date ≤ strTime u) :
    ∃ r, lastUpdated posts = some r ∧ r ∈ posts.map effectiveDate ∧
      ∀ s ∈ posts.map effectiveDate, s ≤ r := by
  cases posts with
  | nil => exact absurd rfl hne
  | cons first rest =>
    obtain ⟨h1, h2, h3⟩ := foldl_updateStep (first :: rest) first.date
    have hlenmap : ∀ s ∈ (first :: rest).map effectiveDate, s.length = 10 := by
      intro s hs
      rcases List.mem_map.mp hs with ⟨p, hp, rfl⟩
      rcases hiso p hp with ⟨hd, hu⟩
      cases hup : p.updated with
      | none => rw [effectiveDate, hup]; exact hd
      | some u => rw [effectiveDate, hup]; exact hu u hup
    have hf : first ∈ first :: rest := List.mem_cons_self _ _
    have hrmem : (first :: rest).foldl updateStep first.date ∈
        (first :: rest).map effectiveDate := by
      rcases h1 with hacc | hmem
      · cases hu : first.updated with
        | none =>
          rw [hacc]
          exact List.mem_map.mpr ⟨first, hf, by rw [effectiveDate, hu]; rfl⟩
        | some u =>
          have hud : strTime first.date ≤ strTime u := hupd first hf u hu
          have heu : effectiveDate first = u := by rw [effectiveDate, hu]; rfl
          have hmax : strTime (effectiveDate first) ≤
              strTime ((first :: rest).foldl updateStep first.date) :=
            h3 _ (List.mem_map.mpr ⟨first, hf, rfl⟩)
          rw [hacc, heu] at hmax
          have hlenu : u.length = first.date.length := by
            rw [(hiso first hf).2 u hu, (hiso first hf).1]
          have hueq : u = first.date := strTime_inj hlenu (Nat.le_antisymm hmax hud)
          rw [hacc, ← hueq]
          exact List.mem_map.mpr ⟨first, hf, heu⟩
      · exact hmem
    have hr : lastUpdated (first :: rest) =
        some ((first :: rest).foldl updateStep first.date) := rfl
    exact ⟨(first :: rest).foldl updateStep first.date, hr, hrmem,
      fun s hs => le_of_strTime_le (by rw [hlenmap _ hrmem, hlenmap _ hs]) (h3 s hs)⟩

/-- Witness for `lastUpdated_max`: the spec's example — two posts with dates
2024-01-01 and 2024-02-01, the second updated 2024-03-01 — yields
"2024-03-01". -/
theorem lastUpdated_max_witness :
    (∃ r, lastUpdated [metaAlpha, metaBeta] = some r ∧
        r ∈ [metaAlpha, metaBeta].map effectiveDate ∧
        ∀ s ∈ [metaAlpha, metaBeta].map effectiveDate, s ≤ r) ∧
      lastUpdated [metaAlpha, metaBeta] = some "2024-03-01" := by
  refine ⟨lastUpdated_max _ (by decide) ?_ ?_, by rfl⟩
  · intro p hp
    rcases List.mem_cons.mp hp with rfl | hp
    · exact ⟨rfl, fun u hu => Option.noConfusion hu⟩
    · rcases List.mem_cons.mp hp with rfl | hp
      · refine ⟨rfl, fun u hu => ?_⟩
        have hu' : some "2024-03-01" = some u := hu
        cases hu'
        rfl
      · cases hp
  · intro p hp u hu
    rcases List.mem_cons.mp hp with rfl | hp
    · exact Option.noConfusion hu
    · rcases List.mem_cons.mp hp with rfl | hp
      · have hu' : some "2024-03-01" = some u := hu
        cases hu'
        decide
      · cases hp

lemma objKeys_aux_mem (l acc : List String) (t : String) :
    t ∈ l.foldl (fun ks t => if t ∈ ks then ks else ks ++ [t]) acc ↔ t ∈ acc ∨ t ∈ l := by
  induction l generalizing acc with
  | nil => simp
  | cons s ss ih =>
    rw [List.foldl_cons]
    by_cases h : s ∈ acc
    · rw [if_pos h, ih]
      constructor
      · rintro (h1 | h1)
        · exact Or.inl h1
        · exact Or.inr (List.mem_cons_of_mem _ h1)
      · rintro (h1 | h1)
        · exact Or.inl h1
        · rcases List.mem_cons.mp h1 with rfl | h1
          · exact Or.inl h
          · exact Or.inr h1
    · rw [if_neg h, ih]
      simp only [List.mem_append, List.mem_singleton, List.mem_cons]
      tauto

lemma objKeys_aux_nodup (l acc : List String) (hacc : acc.Nodup) :
    (l.foldl (fun ks t => if t ∈ ks then ks else ks ++ [t]) acc).Nodup := by
  induction l generalizing acc with
  | nil => exact hacc
  | cons s ss ih =>
    rw [List.foldl_cons]
    by_cases h : s ∈ acc
    · rw [if_pos h]
      exact ih _ hacc
    · rw [if_neg h]
      refine ih _ ?_
      rw [List.nodup_append]
      refine ⟨hacc, List.nodup_singleton s, ?_⟩
      intro a ha hs
      rw [List.mem_singleton] at hs
      subst hs
      exact h ha

/-- C5: `tags` (the spec's `tagFrequencyRanking`) returns the distinct tag
strings occurring across the posts' `tags` (counted as a multiset over all
posts), without duplicates, ordered descending by occurrence count with
ties broken by ascending lexicographic order of the tag string; the empty
input yields the empty sequence. -/
theorem tags_frequency_ranking (posts : List Post) :
    (∀ t, t ∈ tags posts ↔ t ∈ (posts.map Post.tags).flatten) ∧
    (tags posts).Nodup ∧
    (tags posts).Chain' (fun t1 t2 => tagCount posts t2 < tagCount posts t1 ∨
      (tagCount posts t1 = tagCount posts t2 ∧ t1 < t2)) ∧
    tags ([] : List Post) = [] := by
  have hperm := List.perm_insertionSort (tagsOrder posts)
    (objKeys ((posts.map Post.tags).flatten))
  have hnd : (tags posts).Nodup := by
    rw [tags]
    exact hperm.nodup_iff.mpr (objKeys_aux_nodup _ _ List.nodup_nil)
  refine ⟨?_, hnd, ?_, rfl⟩
  · intro t
    rw [tags, hperm.mem_iff, objKeys, objKeys_aux_mem]
    simp
  · have hsorted : (tags posts).Pairwise (tagsOrder posts) := by
      rw [tags]
      exact List.sorted_insertionSort _ _
    have hnd' : (tags posts).Pairwise (fun a b => a ≠ b) := hnd
    refine ((hsorted.and hnd').imp ?_).chain'
    intro a b hab
    rcases hab with ⟨h1 | ⟨h1, hle⟩, hne⟩
    · exact Or.inl h1
    · refine Or.inr ⟨h1, ?_⟩
      have hne' : a.toList ≠ b.toList := fun hc => hne (String.toList_inj.mp hc)
      exact String.lt_iff_toList_lt.mpr (lt_of_le_of_ne hle hne')
